import Mathlib

/-!
Verification of the fudi-rs FUDI message codec.

The development shallowly embeds `src/lib.rs` and `src/parser.rs`:

* byte payloads are `List Nat` (the `&[u8]` slices of the source, one `Nat` per byte);
* the nom 4 streaming combinators used by `parser.rs` (`digit`, `alphanumeric`, `float`,
  `char!`, `take_till!`, `opt!`, `pair!`, `many_till!`) are reproduced with their
  `Ok` / `Err(Error)` / `Err(Incomplete)` outcomes made explicit in the `PR` type;
* the `f32` payload of a Float message is modelled by the exact value of the decimal
  literal involved, as a rational number; `format!("{}", f)` is modelled by the exact
  decimal rendering `renderFloat`;
* Rust panics (index out of bounds, explicit `panic!`) are modelled by the dedicated
  error value `DecodeError.panicked`, so that abnormal termination is observable.
-/

namespace Fudi

/-! ## Byte classification helpers (parser.rs lines 9 to 24, and nom character classes) -/

/-- parser.rs is_whitespace: ASCII 32 (space), 9 (tab), or 10 (newline). -/
def is_whitespace (c : Nat) : Bool := (c == 32) || (c == 9) || (c == 10)

/-- parser.rs is_not_whitespace. -/
def is_not_whitespace (c : Nat) : Bool := !is_whitespace c

/-- nom is_digit: ASCII 0-9. -/
def is_digit (c : Nat) : Bool := (48 ≤ c) && (c ≤ 57)

/-- nom is_alphabetic: ASCII A-Z or a-z. -/
def is_alphabetic (c : Nat) : Bool := ((65 ≤ c) && (c ≤ 90)) || ((97 ≤ c) && (c ≤ 122))

/-- nom is_alphanumeric. -/
def is_alphanumeric (c : Nat) : Bool := is_alphabetic c || is_digit c

/-! ## nom 4 streaming combinator outcomes -/

/-- Outcome of a nom 4 streaming combinator on a byte slice: `Ok((rest, value))`,
    `Err(Error)` (recoverable failure, input rewound by callers such as `opt!`), or
    `Err(Incomplete)` (the input ended in the middle of a potential match). -/
inductive PR (α : Type) where
  | ok (rest : List Nat) (val : α)
  | error
  | incomplete
deriving DecidableEq, Repr

/-- nom streaming split_at_position1, the engine of `digit` and `alphanumeric`:
    the longest nonempty prefix of bytes satisfying `p`; `Error` when the first byte
    already fails `p`, `Incomplete` when the run reaches the end of the input. -/
def split1 (p : Nat → Bool) (input : List Nat) : PR (List Nat) :=
  let run := input.takeWhile p
  let rest := input.dropWhile p
  if rest.isEmpty then .incomplete
  else if run.isEmpty then .error
  else .ok rest run

/-- nom streaming `digit`. -/
def digit (input : List Nat) : PR (List Nat) := split1 is_digit input

/-- nom streaming `alphanumeric`. -/
def alphanumeric (input : List Nat) : PR (List Nat) := split1 is_alphanumeric input

/-- nom streaming take_till!(is_not_whitespace), as used in parse_message: the run of
    whitespace bytes before the next non-whitespace byte (possibly empty); `Incomplete`
    when the input ends before a non-whitespace byte is found. -/
def take_till_not_ws (input : List Nat) : PR (List Nat) :=
  let rest := input.dropWhile is_whitespace
  if rest.isEmpty then .incomplete else .ok rest (input.takeWhile is_whitespace)

/-- nom streaming char!(c): `Incomplete` on empty input, `Error` on a wrong byte. -/
def charP (c : Nat) (input : List Nat) : PR Nat :=
  match input with
  | [] => .incomplete
  | b :: rest => if b = c then .ok rest c else .error

/-- nom opt!: turn `Error` into a `none` result at the original position;
    `Incomplete` is propagated unchanged. -/
def popt {α : Type} (p : List Nat → PR α) (input : List Nat) : PR (Option α) :=
  match p input with
  | .ok rest v => .ok rest (some v)
  | .error => .ok input none
  | .incomplete => .incomplete

/-! ## The nom 4 `float` combinator

`float` is flat_map!(recognize_float, parse_to!(f32)).  recognize_float accepts
an optional sign, then digits with an optional fractional part or a bare fractional
part, then an optional exponent; `parse_to!` converts
the recognized literal with Rust's `f32: FromStr`, which accepts every shape
recognize_float can produce.  The value of the literal is modelled exactly in `ℚ`. -/

/-- Decimal value of a run of ASCII digit bytes, most significant digit first. -/
def digitsVal (ds : List Nat) : Nat := ds.foldl (fun a d => 10 * a + (d - 48)) 0

/-- Value of a fractional digit run: digits after the decimal point. -/
def fracValQ (fs : List Nat) : ℚ := (digitsVal fs : ℚ) / 10 ^ fs.length

/-- opt!(alt!(char!(43) | char!(45))) at the front of recognize_float;
    the result records whether a minus sign was read. -/
def signOpt (input : List Nat) : PR Bool :=
  match charP 43 input with
  | .ok rest _ => .ok rest false
  | .incomplete => .incomplete
  | .error =>
    match charP 45 input with
    | .ok rest _ => .ok rest true
    | .incomplete => .incomplete
    | .error => .ok input false

/-- opt!(pair!(char!(46), opt!(digit))) after the integer digits of recognize_float;
    the result is the value contributed by the fractional part. -/
def fracOpt (input : List Nat) : PR ℚ :=
  match charP 46 input with
  | .incomplete => .incomplete
  | .error => .ok input 0
  | .ok rest _ =>
    match digit rest with
    | .incomplete => .incomplete
    | .error => .ok rest 0
    | .ok rest2 fs => .ok rest2 (fracValQ fs)

/-- Tail of the exponent branch of recognize_float after the byte e or E was read:
    optional sign, then digits.  When the digits are missing the whole exponent tuple
    fails and the enclosing opt! rewinds to `orig`, the position before the e.
    The result is the power-of-ten scale factor. -/
def expTail (orig rest : List Nat) : PR ℚ :=
  match signOpt rest with
  | .incomplete => .incomplete
  | .error => .error
  | .ok rest2 negE =>
    match digit rest2 with
    | .incomplete => .incomplete
    | .error => .ok orig 1
    | .ok rest3 es => .ok rest3 (if negE then 1 / 10 ^ digitsVal es else (10 : ℚ) ^ digitsVal es)

/-- opt!(tuple!(alt!(char!(101) | char!(69)), opt!(sign), digit)): the exponent of
    recognize_float, yielding the scale factor (1 when absent). -/
def expOpt (input : List Nat) : PR ℚ :=
  match charP 101 input with
  | .incomplete => .incomplete
  | .ok rest _ => expTail input rest
  | .error =>
    match charP 69 input with
    | .incomplete => .incomplete
    | .ok rest _ => expTail input rest
    | .error => .ok input 1

/-- nom 4 `float`.  The two alt! branches of recognize_float are: integer digits with an
    optional fractional part, or a decimal point followed by digits.  Constructor cases
    the preceding combinators cannot actually produce are mapped to `.error`. -/
def float (input : List Nat) : PR ℚ :=
  match signOpt input with
  | .incomplete => .incomplete
  | .error => .error
  | .ok i1 neg =>
    match digit i1 with
    | .incomplete => .incomplete
    | .ok i2 ds =>
      match fracOpt i2 with
      | .incomplete => .incomplete
      | .error => .error
      | .ok i3 fv =>
        match expOpt i3 with
        | .incomplete => .incomplete
        | .error => .error
        | .ok i4 scale => .ok i4 ((if neg then -1 else 1) * ((digitsVal ds : ℚ) + fv) * scale)
    | .error =>
      match charP 46 i1 with
      | .incomplete => .incomplete
      | .error => .error
      | .ok i2 _ =>
        match digit i2 with
        | .incomplete => .incomplete
        | .error => .error
        | .ok i3 fs =>
          match expOpt i3 with
          | .incomplete => .incomplete
          | .error => .error
          | .ok i4 scale => .ok i4 ((if neg then -1 else 1) * fracValQ fs * scale)

/-! ## parser.rs parse_atom and parse_message -/

/-- The value produced by parse_atom for one atom:
    ((optional float, optional digit run), optional alphanumeric run). -/
abbrev AtomData := (Option ℚ × Option (List Nat)) × Option (List Nat)

/-- An atom paired with the whitespace run following it, as collected by parse_message. -/
abbrev Token := AtomData × List Nat

/-- parser.rs parse_atom: pair!(pair!(opt!(float), opt!(digit)), opt!(alphanumeric)). -/
def parse_atom (input : List Nat) : PR AtomData :=
  match popt float input with
  | .incomplete => .incomplete
  | .error => .error
  | .ok i1 f =>
    match popt digit i1 with
    | .incomplete => .incomplete
    | .error => .error
    | .ok i2 dg =>
      match popt alphanumeric i2 with
      | .incomplete => .incomplete
      | .error => .error
      | .ok i3 w => .ok i3 ((f, dg), w)

/-- The loop body of parse_message: pair!(parse_atom, take_till!(is_not_whitespace)). -/
def parse_atom_ws (input : List Nat) : PR Token :=
  match parse_atom input with
  | .incomplete => .incomplete
  | .error => .error
  | .ok i a =>
    match take_till_not_ws i with
    | .incomplete => .incomplete
    | .error => .error
    | .ok i2 ws => .ok i2 (a, ws)

/-- parser.rs parse_message:
    many_till!(pair!(parse_atom, take_till!(is_not_whitespace)), char!(59)).
    nom's many_till tries the terminator first; otherwise it runs the body and
    rejects a body application that consumes nothing (the rests returned by the body
    are suffixes of its input, so nom's pointer comparison `i == input` is the length
    comparison used here).  Each surviving iteration consumes at least one byte, so
    fuel `input.length + 1` never reaches the unreachable fuel-0 branch. -/
def parse_message_go : Nat → List Nat → List Token → PR (List Token × Nat)
  | 0, _, _ => .error
  | fuel + 1, input, acc =>
    match charP 59 input with
    | .ok rest c => .ok rest (acc, c)
    | _ =>
      match parse_atom_ws input with
      | .error => .error
      | .incomplete => .incomplete
      | .ok i tok =>
        if i.length = input.length then .error
        else parse_message_go fuel i (acc ++ [tok])

/-- parser.rs parse_message applied to a payload. -/
def parse_message (input : List Nat) : PR (List Token × Nat) :=
  parse_message_go (input.length + 1) input []

/-! ## The message model (lib.rs) -/

/-- lib.rs GenericMessage. -/
structure GenericMessage where
  selector : String
  atoms : List String
deriving DecidableEq, Repr

/-- lib.rs PdMessage.  The f32 payload of a Float message is modelled by the exact
    rational value of the decimal literal it came from or is rendered to. -/
inductive PdMessage where
  | Float (f : ℚ)
  | Symbol (s : String)
  | Bang
  | Generic (msg : GenericMessage)
deriving DecidableEq, Repr

/-- The failure modes of get_message.  The first two constructors are the two literal
    error strings of parser.rs ("terminating semicolon is missing" and "could not parse
    payload"); `panicked` models abnormal termination of the Rust process
    (an out-of-bounds index or an explicit panic!). -/
inductive DecodeError where
  | missingSemicolon
  | couldNotParse
  | panicked
deriving DecidableEq, Repr

/-- The return value of get_message, mirroring Result<PdMessage, &str> with panics
    made observable. -/
inductive DecodeResult where
  | ok (m : PdMessage)
  | err (e : DecodeError)
deriving DecidableEq, Repr

/-! ## Byte and string conversions.  All strings reaching these conversions in the
    source are ASCII, where UTF-8 bytes and characters coincide. -/

/-- The UTF-8 bytes of a Rust string (ASCII in every use below). -/
def str2bytes (s : String) : List Nat := s.data.map Char.toNat

/-- String::from_utf8(bytes.to_vec()).unwrap() for the ASCII byte runs produced by the
    tokenizer. -/
def bytesToString (bs : List Nat) : String := String.mk (bs.map Char.ofNat)

/-! ## parser.rs bytes_to_float and its helper -/

/-- Rust str::parse::<u32>() on ASCII content: an optional leading plus sign, then at
    least one decimal digit, with the value inside the u32 range. -/
def parse_u32 (s : List Nat) : Option Nat :=
  let t := match s with | 43 :: r => r | _ => s
  if t ≠ [] ∧ (∀ d ∈ t, is_digit d = true) ∧ digitsVal t < 2 ^ 32 then some (digitsVal t)
  else none

/-- parser.rs bytes_to_float.  Note that both branches return Some(val * -1.0); the
    missing sign flip in the non-negative branch is a slip in the source, but the
    function is unreachable from get_message: whenever the digit slot of a parsed atom
    could be filled, the float combinator has already succeeded at the same position. -/
def bytes_to_float (atom : List Nat) : Option ℚ :=
  if atom.headD 0 = 45 then
    match parse_u32 atom.tail with
    | some v => some (-(v : ℚ))
    | none => none
  else
    match parse_u32 atom with
    | some v => some (-(v : ℚ))
    | none => none

/-! ## parser.rs get_message -/

/-- The trailing loop of get_message ("message with multiple atoms"): keep only the
    alphanumeric word component of each token, in order. -/
def collect_atoms (tokens : List Token) : List String :=
  tokens.foldl
    (fun acc t =>
      match t.1.2 with
      | some w => acc ++ [bytesToString w]
      | none => acc)
    []

/-- The final section of get_message: build a generic message from the collected word
    atoms.  atoms[0] on an empty vector is an out-of-bounds index, i.e. a panic. -/
def classify_generic (tokens : List Token) : DecodeResult :=
  match collect_atoms tokens with
  | [] => .err .panicked
  | a0 :: rest => .ok (.Generic ⟨a0, rest⟩)

/-- The dispatch of get_message on the parsed token list (parser.rs lines 120 to 209):
    the one-token branch, the two-token branch, then the generic fallback.  Branches
    that do not return in the source fall through exactly as the Rust control flow does. -/
def classify (tokens : List Token) : DecodeResult :=
  match tokens with
  | [t] =>
    match t.1.2 with
    | some atom =>
      if atom = str2bytes "bang" then .ok .Bang
      else if atom = str2bytes "list" then .ok .Bang
      else .ok (.Generic ⟨bytesToString atom, []⟩)
    | none =>
      match t.1.1.1 with
      | some f => .ok (.Float f)
      | none =>
        match t.1.1.2 with
        | some dg =>
          match bytes_to_float dg with
          | some val => .ok (.Float val)
          | none => classify_generic [t]
        | none => classify_generic [t]
  | [t0, t1] =>
    match t0.1.2 with
    | some atom =>
      -- the source tests `atom == "list".as_bytes()` with an empty body: no effect
      match
        (if atom = str2bytes "float" then
          match t1.1.1.1 with
          | some f => some (DecodeResult.ok (.Float f))
          | none =>
            match t1.1.1.2 with
            | some dg =>
              match bytes_to_float dg with
              | some val => some (DecodeResult.ok (.Float val))
              | none => none
            | none => none
        else none) with
      | some r => r
      | none =>
        if atom = str2bytes "symbol" then
          match t1.1.2 with
          | some w => .ok (.Symbol (bytesToString w))
          | none => .err .panicked   -- panic!("parsing symbol message not yet implemented")
        else classify_generic [t0, t1]
    | none => classify_generic [t0, t1]
  | _ => classify_generic tokens

/-- parser.rs get_message: run parse_message and dispatch on the token list; any nom
    failure (Error or Incomplete) becomes the "could not parse payload" result. -/
def get_message (payload : List Nat) : DecodeResult :=
  match parse_message payload with
  | .ok _ (tokens, semicolon) =>
    if semicolon ≠ 59 then .err .missingSemicolon
    else classify tokens
  | _ => .err .couldNotParse

/-! ## lib.rs to_text (the serializer) -/

/-- Multiplicity of `p` in `n`, by repeated division; the fuel `n` dominates the number
    of divisions possible, so the fuel-0 branch is unreachable for positive `n`. -/
def factorMultAux : Nat → Nat → Nat → Nat
  | 0, _, _ => 0
  | fuel + 1, p, n =>
    if 0 < n ∧ n % p = 0 ∧ 2 ≤ p then factorMultAux fuel p (n / p) + 1 else 0

/-- Multiplicity of the prime `p` in `n`. -/
def factorMult (p n : Nat) : Nat := factorMultAux n p n

/-- The number of fractional digits needed to render `q` exactly: for a rational whose
    reduced denominator is 2^a * 5^b this is max a b. -/
def renderExp (q : ℚ) : Nat := max (factorMult 2 q.den) (factorMult 5 q.den)

/-- The ASCII digit bytes of `n`, most significant first (empty for 0). -/
def natDigitsBytes (n : Nat) : List Nat := (Nat.digits 10 n).reverse.map (fun d => d + 48)

/-- Digit bytes of the integer part: at least one digit, as Rust's Display produces. -/
def intBytes (n : Nat) : List Nat := if n = 0 then [48] else natDigitsBytes n

/-- Digit bytes of the fractional part `f`, left-padded with zeros to exactly `e`
    digits. -/
def fracBytes (f e : Nat) : List Nat :=
  List.replicate (e - (Nat.digits 10 f).length) 48 ++ natDigitsBytes f

/-- The bytes of the decimal rendering of `q`: sign, integer digits, and for a nonzero
    number of fractional digits a decimal point and the padded fractional digits.
    For the finite binary values an f32 can hold this is exactly what Rust's
    format!("{}", f) prints. -/
def renderFloatBytes (q : ℚ) : List Nat :=
  let e := renderExp q
  let scaled := q.num.natAbs * (10 ^ e / q.den)
  (if q.num < 0 then [45] else []) ++ intBytes (scaled / 10 ^ e) ++
    (if e = 0 then [] else 46 :: fracBytes (scaled % 10 ^ e) e)

/-- The decimal rendering of the float payload, modelling format!("{}", f). -/
def renderFloat (q : ℚ) : String := String.mk ((renderFloatBytes q).map Char.ofNat)

/-- lib.rs PdMessage::to_text: build the payload text per variant, then append the
    terminator and the trailing newline with format!("{};\n", payload). -/
def to_text (m : PdMessage) : String :=
  let payload : String :=
    match m with
    | .Float f => "float " ++ renderFloat f
    | .Symbol word => "symbol " ++ word
    | .Bang => "bang"
    | .Generic msg => msg.atoms.foldl (fun payload atom => payload ++ " " ++ atom) msg.selector
  payload ++ ";\n"

/-! ## lib.rs NetReceiveUdp::receive_binary -/

/-- lib.rs receive_binary, modelled as a function of the incoming datagram.  The source
    declares `let mut buffer: [u8; 1] = [0; 1];`, so recv_from copies at most one byte
    into the buffer (a UDP datagram longer than the buffer is silently cut short) and
    the returned vector is buffer[..amount]. -/
def receive_binary (datagram : List Nat) : List Nat :=
  datagram.take 1

/-! ## Specification-side vocabulary used to state the claims -/

/-- A word the tokenizer keeps whole: nonempty, alphanumeric bytes, first byte a letter
    (so the numeric combinators do not split it). -/
def simpleWord (w : List Nat) : Bool :=
  !w.isEmpty && w.all (fun a => is_alphanumeric a) && is_alphabetic (w.headD 0)

/-- The atoms of a payload joined by single spaces (byte 32). -/
def joinWords : List (List Nat) → List Nat
  | [] => []
  | [w] => w
  | w :: ws => w ++ 32 :: joinWords ws

/-- The token list the tokenizer produces for space-separated simple words followed by
    the terminator: each word carries its trailing whitespace run. -/
def wordTokens : List (List Nat) → List Token
  | [] => []
  | [w] => [(((none, none), some w), [])]
  | w :: ws => (((none, none), some w), [32]) :: wordTokens ws

/-- The byte content of an optional fractional part: a decimal point and its digits. -/
def fracPart : Option (List Nat) → List Nat
  | some fs => 46 :: fs
  | none => []

/-- The magnitude contributed by an optional fractional part. -/
def fracMagQ : Option (List Nat) → ℚ
  | some fs => fracValQ fs
  | none => 0

/-- The magnitude denoted by integer digits and an optional fractional part. -/
def decimalMag (ds : List Nat) (frac : Option (List Nat)) : ℚ :=
  (digitsVal ds : ℚ) + fracMagQ frac

/-- Apply the sign of an optional leading minus to a magnitude. -/
def signedVal (neg : Bool) (mag : ℚ) : ℚ := if neg then -mag else mag

/-- The scaled integer `|q| * 10 ^ e` used by the decimal rendering. -/
def renderScaled (q : ℚ) : Nat := q.num.natAbs * (10 ^ renderExp q / q.den)

/-- Integer part of the decimal rendering. -/
def renderIp (q : ℚ) : Nat := renderScaled q / 10 ^ renderExp q

/-- Fractional part of the decimal rendering, as an integer scaled by `10 ^ e`. -/
def renderFp (q : ℚ) : Nat := renderScaled q % 10 ^ renderExp q

/-- The optional fractional digit run of the decimal rendering. -/
def renderFrac (q : ℚ) : Option (List Nat) :=
  if renderExp q = 0 then none else some (fracBytes (renderFp q) (renderExp q))

/-- The byte strings of the reserved selector words of the classifier. -/
def reserved_selector_bytes : List (List Nat) :=
  [str2bytes "bang", str2bytes "float", str2bytes "symbol", str2bytes "list"]

/-- The domain on which the serialize-then-decode round trip holds (the amendment of
    claim C1): Bang always; Float for payload values with a finite decimal expansion
    (every value an f32 can hold is one); Symbol when the text is a single simple word;
    Generic when the selector and every atom are simple words and the selector is not a
    reserved word. -/
def roundtrippable : PdMessage → Bool
  | .Bang => true
  | .Float q => decide (q.den ∣ 10 ^ renderExp q)
  | .Symbol s => simpleWord (str2bytes s)
  | .Generic msg =>
      simpleWord (str2bytes msg.selector) &&
      msg.atoms.all (fun a => simpleWord (str2bytes a)) &&
      !(reserved_selector_bytes.contains (str2bytes msg.selector))

/-! ## Run lemmas for the streaming combinators -/

theorem takeWhile_append_all {p : Nat → Bool} {l : List Nat} (r : List Nat)
    (h : ∀ a ∈ l, p a = true) : (l ++ r).takeWhile p = l ++ r.takeWhile p := by
  induction l with
  | nil => simp
  | cons x xs ih =>
    have hx : p x = true := h x (List.mem_cons_self x xs)
    simp only [List.cons_append, List.takeWhile_cons, hx, if_true]
    rw [ih (fun a ha => h a (List.mem_cons_of_mem x ha))]

theorem dropWhile_append_all {p : Nat → Bool} {l : List Nat} (r : List Nat)
    (h : ∀ a ∈ l, p a = true) : (l ++ r).dropWhile p = r.dropWhile p := by
  induction l with
  | nil => simp
  | cons x xs ih =>
    have hx : p x = true := h x (List.mem_cons_self x xs)
    simp only [List.cons_append, List.dropWhile_cons, hx, if_true]
    exact ih (fun a ha => h a (List.mem_cons_of_mem x ha))

theorem takeWhile_head_false {p : Nat → Bool} {r : List Nat} (hr : r ≠ [])
    (hh : p (r.headD 0) = false) : r.takeWhile p = [] := by
  cases r with
  | nil => exact absurd rfl hr
  | cons x xs => simp only [List.headD_cons] at hh; simp [List.takeWhile_cons, hh]

theorem dropWhile_head_false {p : Nat → Bool} {r : List Nat} (hr : r ≠ [])
    (hh : p (r.headD 0) = false) : r.dropWhile p = r := by
  cases r with
  | nil => exact absurd rfl hr
  | cons x xs => simp only [List.headD_cons] at hh; simp [List.dropWhile_cons, hh]

theorem split1_ok {p : Nat → Bool} {w r : List Nat} (hw : w ≠ [])
    (hall : ∀ a ∈ w, p a = true) (hr : r ≠ []) (hh : p (r.headD 0) = false) :
    split1 p (w ++ r) = .ok r w := by
  unfold split1
  rw [takeWhile_append_all r hall, dropWhile_append_all r hall,
      takeWhile_head_false hr hh, dropWhile_head_false hr hh]
  simp [hw, hr]

theorem split1_error {p : Nat → Bool} {input : List Nat} (hne : input ≠ [])
    (hh : p (input.headD 0) = false) : split1 p input = .error := by
  unfold split1
  rw [takeWhile_head_false hne hh, dropWhile_head_false hne hh]
  simp [hne]

theorem take_till_ok {w r : List Nat} (hall : ∀ a ∈ w, is_whitespace a = true)
    (hr : r ≠ []) (hh : is_whitespace (r.headD 0) = false) :
    take_till_not_ws (w ++ r) = .ok r w := by
  unfold take_till_not_ws
  rw [dropWhile_append_all r hall, dropWhile_head_false hr hh,
      takeWhile_append_all r hall, takeWhile_head_false hr hh]
  simp [hr]

theorem take_till_imm {r : List Nat} (hr : r ≠ [])
    (hh : is_whitespace (r.headD 0) = false) : take_till_not_ws r = .ok r [] := by
  have h := take_till_ok (w := []) (by intro a ha; cases ha) hr hh
  simpa using h

/-! ## Arithmetic facts about the byte classes -/

theorem alpha_range {c : Nat} (h : is_alphabetic c = true) :
    (65 ≤ c ∧ c ≤ 90) ∨ (97 ≤ c ∧ c ≤ 122) := by
  simpa [is_alphabetic, Bool.or_eq_true, Bool.and_eq_true] using h

theorem digit_range {c : Nat} (h : is_digit c = true) : 48 ≤ c ∧ c ≤ 57 := by
  simpa [is_digit, Bool.and_eq_true] using h

theorem is_digit_false {c : Nat} (h : ¬ (48 ≤ c ∧ c ≤ 57)) : is_digit c = false := by
  simp [is_digit]; omega

theorem is_ws_false {c : Nat} (h : c ≠ 32 ∧ c ≠ 9 ∧ c ≠ 10) : is_whitespace c = false := by
  simp [is_whitespace]; omega

theorem is_alpha_false {c : Nat} (h : ¬ ((65 ≤ c ∧ c ≤ 90) ∨ (97 ≤ c ∧ c ≤ 122))) :
    is_alphabetic c = false := by
  simp [is_alphabetic]; omega

theorem is_alnum_false {c : Nat} (hd : is_digit c = false) (ha : is_alphabetic c = false) :
    is_alphanumeric c = false := by
  simp [is_alphanumeric, hd, ha]

theorem alpha_facts {c : Nat} (h : is_alphabetic c = true) :
    is_digit c = false ∧ is_whitespace c = false ∧ is_alphanumeric c = true ∧
      c ≠ 43 ∧ c ≠ 45 ∧ c ≠ 46 ∧ c ≠ 59 := by
  have hr := alpha_range h
  exact ⟨is_digit_false (by omega), is_ws_false (by omega), by simp [is_alphanumeric, h],
    by omega, by omega, by omega, by omega⟩

theorem digit_facts {c : Nat} (h : is_digit c = true) :
    is_whitespace c = false ∧ is_alphanumeric c = true ∧
      c ≠ 43 ∧ c ≠ 45 ∧ c ≠ 46 ∧ c ≠ 59 ∧ c ≠ 101 ∧ c ≠ 69 ∧ is_alphabetic c = false := by
  have hr := digit_range h
  exact ⟨is_ws_false (by omega), by simp [is_alphanumeric, h], by omega, by omega, by omega,
    by omega, by omega, by omega, is_alpha_false (by omega)⟩

theorem semicolon_facts :
    is_digit 59 = false ∧ is_whitespace 59 = false ∧ is_alphanumeric 59 = false := by
  decide

/-! ## Atom-level parsing lemmas -/

theorem headD_append {w : List Nat} (r : List Nat) (hw : w ≠ []) :
    (w ++ r).headD 0 = w.headD 0 := by
  cases w with
  | nil => exact absurd rfl hw
  | cons x xs => simp

theorem simpleWord_spec {w : List Nat} (h : simpleWord w = true) :
    w ≠ [] ∧ (∀ a ∈ w, is_alphanumeric a = true) ∧ is_alphabetic (w.headD 0) = true := by
  cases w with
  | nil => simp [simpleWord] at h
  | cons x xs =>
    simp only [simpleWord, Bool.and_eq_true, Bool.not_eq_true', List.all_eq_true] at h
    exact ⟨by simp, h.1.2, h.2⟩

theorem charP_ne {c : Nat} {input : List Nat} (hne : input ≠ []) (h : input.headD 0 ≠ c) :
    charP c input = .error := by
  cases input with
  | nil => exact absurd rfl hne
  | cons b t => simp only [List.headD_cons] at h; simp [charP, h]

theorem signOpt_none {input : List Nat} (hne : input ≠ [])
    (h43 : input.headD 0 ≠ 43) (h45 : input.headD 0 ≠ 45) :
    signOpt input = .ok input false := by
  cases input with
  | nil => exact absurd rfl hne
  | cons c t => simp only [List.headD_cons] at h43 h45; simp [signOpt, charP, h43, h45]

theorem signOpt_neg (t : List Nat) : signOpt (45 :: t) = .ok t true := by
  simp [signOpt, charP]

theorem float_letter_error {input : List Nat} (hne : input ≠ [])
    (hh : is_alphabetic (input.headD 0) = true) : float input = .error := by
  obtain ⟨hd, -, -, h43, h45, h46, -⟩ := alpha_facts hh
  have hsign : signOpt input = .ok input false := signOpt_none hne h43 h45
  have hdig : digit input = .error := split1_error hne hd
  have hdot : charP 46 input = .error := charP_ne hne h46
  unfold float
  simp only [hsign, hdig, hdot]

theorem parse_atom_word {w r : List Nat} (hw : simpleWord w = true) (hr : r ≠ [])
    (hh : is_alphanumeric (r.headD 0) = false) :
    parse_atom (w ++ r) = .ok r ((none, none), some w) := by
  obtain ⟨hne, hall, halpha⟩ := simpleWord_spec hw
  have hwr : w ++ r ≠ [] := by simp [hne]
  have hhead : (w ++ r).headD 0 = w.headD 0 := headD_append r hne
  have hfl : float (w ++ r) = .error := float_letter_error hwr (by rw [hhead]; exact halpha)
  obtain ⟨hd, -, -, -, -, -, -⟩ := alpha_facts halpha
  have hdig : digit (w ++ r) = .error := split1_error hwr (by rw [hhead]; exact hd)
  have halw : alphanumeric (w ++ r) = .ok r w := split1_ok hne hall hr hh
  unfold parse_atom popt
  simp only [hfl, hdig, halw]

theorem float_numeric {neg : Bool} {ds : List Nat} {frac : Option (List Nat)}
    (rest : List Nat) (hds : ds ≠ []) (hall : ∀ d ∈ ds, is_digit d = true)
    (hfr : ∀ fs, frac = some fs → fs ≠ [] ∧ ∀ d ∈ fs, is_digit d = true) :
    float ((if neg then [45] else []) ++ ds ++ fracPart frac ++ 59 :: rest)
      = .ok (59 :: rest)
          ((if neg then -1 else 1) * ((digitsVal ds : ℚ) + fracMagQ frac) * 1) := by
  have hdhead : is_digit (ds.headD 0) = true := by
    cases ds with
    | nil => exact absurd rfl hds
    | cons d t => exact hall d (List.mem_cons_self _ _)
  obtain ⟨-, -, hd43, hd45, -, -, -, -, -⟩ := digit_facts hdhead
  -- the tail following the integer digits, and the fracOpt step on it
  have htailne : fracPart frac ++ 59 :: rest ≠ [] := by
    cases frac <;> simp [fracPart]
  have htailhead : is_digit ((fracPart frac ++ 59 :: rest).headD 0) = false := by
    cases frac <;> simp [fracPart] <;> decide
  have hdigit : digit (ds ++ (fracPart frac ++ 59 :: rest))
      = .ok (fracPart frac ++ 59 :: rest) ds := split1_ok hds hall htailne htailhead
  have hfrac : fracOpt (fracPart frac ++ 59 :: rest) = .ok (59 :: rest) (fracMagQ frac) := by
    cases frac with
    | none =>
      have : charP 46 (59 :: rest) = .error := charP_ne (by simp) (by simp)
      simp [fracPart, fracOpt, this, fracMagQ]
    | some fs =>
      obtain ⟨hfsne, hfsall⟩ := hfr fs rfl
      have hdfs : digit (fs ++ 59 :: rest) = .ok (59 :: rest) fs :=
        split1_ok hfsne hfsall (by simp) (by simp only [List.headD_cons]; decide)
      simp only [fracPart, fracOpt, List.cons_append, charP, if_pos rfl]
      simp [hdfs, fracMagQ]
  have hexp : expOpt (59 :: rest) = .ok (59 :: rest) 1 := by
    have h1 : charP 101 (59 :: rest) = .error := charP_ne (by simp) (by simp)
    have h2 : charP 69 (59 :: rest) = .error := charP_ne (by simp) (by simp)
    simp [expOpt, h1, h2]
  cases neg with
  | true =>
    have hsign : signOpt (45 :: (ds ++ (fracPart frac ++ 59 :: rest)))
        = .ok (ds ++ (fracPart frac ++ 59 :: rest)) true := signOpt_neg _
    have hshape : (if true then [45] else []) ++ ds ++ fracPart frac ++ 59 :: rest
        = 45 :: (ds ++ (fracPart frac ++ 59 :: rest)) := by simp
    rw [hshape]
    unfold float
    simp only [hsign, hdigit, hfrac, hexp]
  | false =>
    have hshape : (if false then [45] else []) ++ ds ++ fracPart frac ++ 59 :: rest
        = ds ++ (fracPart frac ++ 59 :: rest) := by simp
    rw [hshape]
    have hne2 : ds ++ (fracPart frac ++ 59 :: rest) ≠ [] := by simp [hds]
    have hhead2 : (ds ++ (fracPart frac ++ 59 :: rest)).headD 0 = ds.headD 0 :=
      headD_append _ hds
    have hsign : signOpt (ds ++ (fracPart frac ++ 59 :: rest))
        = .ok (ds ++ (fracPart frac ++ 59 :: rest)) false :=
      signOpt_none hne2 (by rw [hhead2]; exact hd43) (by rw [hhead2]; exact hd45)
    unfold float
    simp only [hsign, hdigit, hfrac, hexp]

theorem parse_atom_numeric {neg : Bool} {ds : List Nat} {frac : Option (List Nat)}
    (rest : List Nat) (hds : ds ≠ []) (hall : ∀ d ∈ ds, is_digit d = true)
    (hfr : ∀ fs, frac = some fs → fs ≠ [] ∧ ∀ d ∈ fs, is_digit d = true) :
    parse_atom ((if neg then [45] else []) ++ ds ++ fracPart frac ++ 59 :: rest)
      = .ok (59 :: rest)
          ((some ((if neg then -1 else 1) * ((digitsVal ds : ℚ) + fracMagQ frac) * 1),
            none), none) := by
  have hfl := @float_numeric neg ds frac rest hds hall hfr
  have hdig : digit (59 :: rest) = .error :=
    split1_error (by simp) (by simp only [List.headD_cons]; decide)
  have halw : alphanumeric (59 :: rest) = .error :=
    split1_error (by simp) (by simp only [List.headD_cons]; decide)
  unfold parse_atom popt
  simp only [hfl, hdig, halw]

/-! ## Message-loop lemmas -/

theorem go_semicolon {fuel : Nat} (hf : 0 < fuel) (rest : List Nat) (acc : List Token) :
    parse_message_go fuel (59 :: rest) acc = .ok rest (acc, 59) := by
  obtain ⟨k, rfl⟩ : ∃ k, fuel = k + 1 := ⟨fuel - 1, by omega⟩
  simp [parse_message_go, charP]

theorem go_step {fuel : Nat} {input i : List Nat} {tok : Token} {acc : List Token}
    (hne : input ≠ []) (h59 : input.headD 0 ≠ 59)
    (hp : parse_atom_ws input = .ok i tok) (hlt : i.length < input.length) :
    parse_message_go (fuel + 1) input acc = parse_message_go fuel i (acc ++ [tok]) := by
  have hc : charP 59 input = .error := charP_ne hne h59
  simp only [parse_message_go, hc, hp]
  simp [Nat.ne_of_lt hlt]

theorem parse_atom_ws_word {w sp r : List Nat} (hw : simpleWord w = true)
    (hsp : ∀ a ∈ sp, is_whitespace a = true) (hr : r ≠ [])
    (hha : is_alphanumeric ((sp ++ r).headD 0) = false)
    (hhw : is_whitespace (r.headD 0) = false) :
    parse_atom_ws (w ++ (sp ++ r)) = .ok r (((none, none), some w), sp) := by
  have hsr : sp ++ r ≠ [] := by simp [hr]
  have h1 : parse_atom (w ++ (sp ++ r)) = .ok (sp ++ r) ((none, none), some w) :=
    parse_atom_word hw hsr hha
  have h2 : take_till_not_ws (sp ++ r) = .ok r sp := take_till_ok hsp hr hhw
  unfold parse_atom_ws
  simp only [h1, h2]

theorem joinWords_head {w2 : List Nat} (ws2 : List (List Nat)) (h : w2 ≠ []) :
    joinWords (w2 :: ws2) ≠ [] ∧ (joinWords (w2 :: ws2)).headD 0 = w2.headD 0 := by
  cases ws2 with
  | nil => exact ⟨h, rfl⟩
  | cons x t =>
    have he : joinWords (w2 :: x :: t) = w2 ++ 32 :: joinWords (x :: t) := by
      simp [joinWords]
    exact ⟨by rw [he]; simp [h], by rw [he, headD_append _ h]⟩

theorem go_words (ws : List (List Nat)) :
    ∀ (fuel : Nat) (acc : List Token), (∀ w ∈ ws, simpleWord w = true) →
      (joinWords ws ++ [59, 10]).length ≤ fuel →
      parse_message_go fuel (joinWords ws ++ [59, 10]) acc
        = .ok [10] (acc ++ wordTokens ws, 59) := by
  induction ws with
  | nil =>
    intro fuel acc _ hf
    simp only [joinWords, List.nil_append, wordTokens, List.append_nil]
    exact go_semicolon (by simp at hf; omega) [10] acc
  | cons w ws ih =>
    intro fuel acc hws hf
    have hsw := hws w (List.mem_cons_self _ _)
    obtain ⟨hne, hall, halpha⟩ := simpleWord_spec hsw
    obtain ⟨hhd, hhw, hhan, -, -, -, hh59⟩ := alpha_facts halpha
    cases ws with
    | nil =>
      have hshape : joinWords [w] ++ [59, 10] = w ++ ([] ++ (59 :: [10])) := by
        simp [joinWords]
      rw [hshape]
      have hp : parse_atom_ws (w ++ ([] ++ (59 :: [10])))
          = .ok (59 :: [10]) (((none, none), some w), []) :=
        parse_atom_ws_word hsw (by intro a ha; cases ha) (by simp)
          (by simp only [List.nil_append, List.headD_cons]; decide)
          (by simp only [List.headD_cons]; decide)
      obtain ⟨k, rfl⟩ : ∃ k, fuel = k + 1 := by
        refine ⟨fuel - 1, ?_⟩
        simp [hshape] at hf
        omega
      rw [go_step (by simp [hne]) (by rw [headD_append _ hne]; exact hh59) hp
        (by simp [List.length_append]; cases w with | nil => exact absurd rfl hne | cons a b => simp)]
      rw [go_semicolon (by simp [List.length_append] at hf ⊢; omega) [10] (acc ++ [_])]
      simp [wordTokens]
    | cons w2 ws2 =>
      have hw2 := hws w2 (by simp)
      obtain ⟨hne2, -, halpha2⟩ := simpleWord_spec hw2
      obtain ⟨-, hhw2, -, -, -, -, -⟩ := alpha_facts halpha2
      obtain ⟨hjne, hjhead⟩ := joinWords_head ws2 hne2
      have hJne : joinWords (w2 :: ws2) ++ [59, 10] ≠ [] := by simp [hjne]
      have hJhead : (joinWords (w2 :: ws2) ++ [59, 10]).headD 0 = w2.headD 0 := by
        rw [headD_append _ hjne, hjhead]
      have hshape : joinWords (w :: w2 :: ws2) ++ [59, 10]
          = w ++ ([32] ++ (joinWords (w2 :: ws2) ++ [59, 10])) := by
        simp [joinWords]
      rw [hshape]
      have hp : parse_atom_ws (w ++ ([32] ++ (joinWords (w2 :: ws2) ++ [59, 10])))
          = .ok (joinWords (w2 :: ws2) ++ [59, 10]) (((none, none), some w), [32]) :=
        parse_atom_ws_word hsw (by intro a ha; simp at ha; subst ha; decide) hJne
          (by simp only [List.cons_append, List.headD_cons]; decide)
          (by rw [hJhead]; exact hhw2)
      obtain ⟨k, rfl⟩ : ∃ k, fuel = k + 1 := by
        refine ⟨fuel - 1, ?_⟩
        simp [hshape, List.length_append] at hf
        omega
      rw [go_step (by simp [hne]) (by rw [headD_append _ hne]; exact hh59) hp
        (by simp [List.length_append]; cases w with | nil => exact absurd rfl hne | cons a b => simp; omega)]
      rw [ih k (acc ++ [(((none, none), some w), [32])]) (fun x hx => hws x (by simp [hx]))
        (by simp [hshape, List.length_append] at hf ⊢; omega)]
      simp [wordTokens]

theorem parse_message_words (ws : List (List Nat)) (hws : ∀ w ∈ ws, simpleWord w = true) :
    parse_message (joinWords ws ++ [59, 10]) = .ok [10] (wordTokens ws, 59) := by
  have h := go_words ws ((joinWords ws ++ [59, 10]).length + 1) [] hws (by omega)
  simpa [parse_message] using h

/-! ## Classification lemmas -/

theorem collect_go (ws : List (List Nat)) :
    ∀ acc : List String,
      (wordTokens ws).foldl
        (fun acc t =>
          match t.1.2 with
          | some w => acc ++ [bytesToString w]
          | none => acc) acc
      = acc ++ ws.map bytesToString := by
  induction ws with
  | nil => intro acc; simp [wordTokens]
  | cons w ws ih =>
    intro acc
    cases ws with
    | nil => simp [wordTokens]
    | cons w2 ws2 =>
      have he : wordTokens (w :: w2 :: ws2)
          = (((none, none), some w), [32]) :: wordTokens (w2 :: ws2) := by
        simp [wordTokens]
      rw [he, List.foldl_cons, ih]
      simp

theorem collect_wordTokens (ws : List (List Nat)) :
    collect_atoms (wordTokens ws) = ws.map bytesToString := by
  have h := collect_go ws []
  simpa [collect_atoms] using h

theorem classify_one_word (w : List Nat) (hbang : w ≠ str2bytes "bang")
    (hlist : w ≠ str2bytes "list") :
    classify (wordTokens [w]) = .ok (.Generic ⟨bytesToString w, []⟩) := by
  simp [wordTokens, classify, hbang, hlist]

theorem classify_words (w0 w1 : List Nat) (ws : List (List Nat))
    (hfl : w0 ≠ str2bytes "float") (hsy : w0 ≠ str2bytes "symbol") :
    classify (wordTokens (w0 :: w1 :: ws))
      = .ok (.Generic ⟨bytesToString w0, (w1 :: ws).map bytesToString⟩) := by
  cases ws with
  | nil => simp [wordTokens, classify, hfl, hsy, classify_generic, collect_atoms]
  | cons w2 ws2 =>
    have he : wordTokens (w0 :: w1 :: w2 :: ws2)
        = (((none, none), some w0), [32]) :: (((none, none), some w1), [32])
            :: wordTokens (w2 :: ws2) := by
      simp [wordTokens]
    obtain ⟨tk, tl, hwt⟩ : ∃ tk tl, wordTokens (w2 :: ws2) = tk :: tl := by
      cases ws2 with
      | nil => exact ⟨(((none, none), some w2), []), [], by simp [wordTokens]⟩
      | cons x t =>
        exact ⟨(((none, none), some w2), [32]), wordTokens (x :: t), by simp [wordTokens]⟩
    have hcol := collect_wordTokens (w0 :: w1 :: w2 :: ws2)
    rw [he, hwt] at hcol ⊢
    simp only [classify, classify_generic, hcol]
    simp

theorem get_message_words (ws : List (List Nat)) (hws : ∀ w ∈ ws, simpleWord w = true) :
    get_message (joinWords ws ++ [59, 10]) = classify (wordTokens ws) := by
  unfold get_message
  rw [parse_message_words ws hws]
  simp

theorem signedVal_shape (neg : Bool) (a b : ℚ) :
    (if neg then (-1 : ℚ) else 1) * (a + b) * 1 = signedVal neg (a + b) := by
  cases neg <;> simp [signedVal]

theorem go_numeric {neg : Bool} {ds : List Nat} {frac : Option (List Nat)}
    (hds : ds ≠ []) (hall : ∀ d ∈ ds, is_digit d = true)
    (hfr : ∀ fs, frac = some fs → fs ≠ [] ∧ ∀ d ∈ fs, is_digit d = true)
    (fuel : Nat) (acc : List Token)
    (hf : ((if neg then [45] else []) ++ ds ++ fracPart frac ++ 59 :: [10]).length ≤ fuel) :
    parse_message_go fuel ((if neg then [45] else []) ++ ds ++ fracPart frac ++ 59 :: [10]) acc
      = .ok [10]
          (acc ++ [(((some ((if neg then -1 else 1) * ((digitsVal ds : ℚ) + fracMagQ frac) * 1),
            none), none), [])], 59) := by
  have hpa := @parse_atom_numeric neg ds frac [10] hds hall hfr
  have htt : take_till_not_ws (59 :: [10]) = .ok (59 :: [10]) [] :=
    take_till_imm (by simp) (by simp only [List.headD_cons]; decide)
  have hpaw : parse_atom_ws ((if neg then [45] else []) ++ ds ++ fracPart frac ++ 59 :: [10])
      = .ok (59 :: [10])
          (((some ((if neg then -1 else 1) * ((digitsVal ds : ℚ) + fracMagQ frac) * 1),
            none), none), []) := by
    unfold parse_atom_ws
    simp only [hpa, htt]
  have hin_ne : (if neg then [45] else []) ++ ds ++ fracPart frac ++ 59 :: [10] ≠ [] := by
    cases neg <;> simp [hds]
  have hin_head : ((if neg then [45] else []) ++ ds ++ fracPart frac ++ 59 :: [10]).headD 0
      ≠ 59 := by
    cases neg with
    | true => simp
    | false =>
      cases ds with
      | nil => exact absurd rfl hds
      | cons d t =>
        obtain ⟨-, -, -, -, -, h59, -, -, -⟩ :=
          digit_facts (hall d (List.mem_cons_self _ _))
        simpa using h59
  have hlen : (59 :: [10] : List Nat).length
      < ((if neg then [45] else []) ++ ds ++ fracPart frac ++ 59 :: [10]).length := by
    cases ds with
    | nil => exact absurd rfl hds
    | cons d t => cases neg <;> (simp [List.length_append]; try omega)
  have hlen2 : 2 < ((if neg then [45] else []) ++ ds ++ fracPart frac ++ 59 :: [10]).length := by
    simpa using hlen
  obtain ⟨k, hk⟩ : ∃ k, fuel = k + 1 := ⟨fuel - 1, by omega⟩
  subst hk
  rw [go_step hin_ne hin_head hpaw (by simpa using hlen), go_semicolon (by omega) [10] _]

theorem get_message_numeric {neg : Bool} {ds : List Nat} {frac : Option (List Nat)}
    (hds : ds ≠ []) (hall : ∀ d ∈ ds, is_digit d = true)
    (hfr : ∀ fs, frac = some fs → fs ≠ [] ∧ ∀ d ∈ fs, is_digit d = true) :
    get_message ((if neg then [45] else []) ++ ds ++ fracPart frac ++ [59, 10])
      = .ok (.Float (signedVal neg (decimalMag ds frac))) := by
  unfold get_message parse_message
  rw [go_numeric hds hall hfr _ [] (by omega)]
  show DecodeResult.ok
        (.Float ((if neg then (-1 : ℚ) else 1) * ((digitsVal ds : ℚ) + fracMagQ frac) * 1))
      = DecodeResult.ok (.Float (signedVal neg (decimalMag ds frac)))
  rw [signedVal_shape]
  rfl

theorem get_message_float_sel {neg : Bool} {ds : List Nat} {frac : Option (List Nat)}
    (hds : ds ≠ []) (hall : ∀ d ∈ ds, is_digit d = true)
    (hfr : ∀ fs, frac = some fs → fs ≠ [] ∧ ∀ d ∈ fs, is_digit d = true) :
    get_message (str2bytes "float"
        ++ ([32] ++ ((if neg then [45] else []) ++ ds ++ fracPart frac ++ 59 :: [10])))
      = .ok (.Float (signedVal neg (decimalMag ds frac))) := by
  have hrne : (if neg then [45] else []) ++ ds ++ fracPart frac ++ 59 :: [10] ≠ [] := by
    cases neg <;> simp [hds]
  have hrhead : is_whitespace
      (((if neg then [45] else []) ++ ds ++ fracPart frac ++ 59 :: [10]).headD 0) = false := by
    cases neg with
    | true => simp [is_whitespace]
    | false =>
      cases ds with
      | nil => exact absurd rfl hds
      | cons d t =>
        obtain ⟨hws, -, -, -, -, -, -, -, -⟩ :=
          digit_facts (hall d (List.mem_cons_self _ _))
        simpa using hws
  have hpw : parse_atom_ws (str2bytes "float"
        ++ ([32] ++ ((if neg then [45] else []) ++ ds ++ fracPart frac ++ 59 :: [10])))
      = .ok ((if neg then [45] else []) ++ ds ++ fracPart frac ++ 59 :: [10])
          (((none, none), some (str2bytes "float")), [32]) :=
    parse_atom_ws_word (by decide) (by intro a ha; simp at ha; subst ha; decide) hrne
      (by simp only [List.cons_append, List.headD_cons]; decide) hrhead
  have hlen : ((if neg then [45] else []) ++ ds ++ fracPart frac ++ 59 :: [10]).length
      < (str2bytes "float"
          ++ ([32] ++ ((if neg then [45] else []) ++ ds ++ fracPart frac ++ 59 :: [10]))).length := by
    simp [List.length_append]
    omega
  have hpos : 0 < (str2bytes "float"
      ++ ([32] ++ ((if neg then [45] else []) ++ ds ++ fracPart frac ++ 59 :: [10]))).length := by
    simp [List.length_append]
  unfold get_message parse_message
  obtain ⟨k, hk⟩ : ∃ k, (str2bytes "float"
      ++ ([32] ++ ((if neg then [45] else []) ++ ds ++ fracPart frac ++ 59 :: [10]))).length
      = k + 1 := ⟨(str2bytes "float"
      ++ ([32] ++ ((if neg then [45] else []) ++ ds ++ fracPart frac ++ 59 :: [10]))).length - 1,
      by omega⟩
  rw [hk, go_step (by simp) (by rw [headD_append _ (by decide)]; decide) hpw hlen,
    go_numeric hds hall hfr (k + 1) ([] ++ [(((none, none), some (str2bytes "float")), [32])])
      (by omega)]
  show DecodeResult.ok
        (.Float ((if neg then (-1 : ℚ) else 1) * ((digitsVal ds : ℚ) + fracMagQ frac) * 1))
      = DecodeResult.ok (.Float (signedVal neg (decimalMag ds frac)))
  rw [signedVal_shape]
  rfl

/-! ## String and byte conversion lemmas -/

theorem str2bytes_append (a b : String) :
    str2bytes (a ++ b) = str2bytes a ++ str2bytes b := by
  show ((a ++ b).data).map Char.toNat = _
  have h : (a ++ b).data = a.data ++ b.data := rfl
  rw [h, List.map_append]
  rfl

theorem toNat_ofNat_ascii {b : Nat} (h : b < 128) : (Char.ofNat b).toNat = b := by
  have hv : Nat.isValidChar b := Or.inl (by omega)
  simp [Char.ofNat, hv, Char.toNat, Char.ofNatAux, UInt32.toNat, BitVec.toNat_ofNatLt]

theorem headD_mem {l : List Nat} (h : l ≠ []) : l.headD 0 ∈ l := by
  cases l with
  | nil => exact absurd rfl h
  | cons x xs => simp

theorem str2bytes_bytesToString {bs : List Nat} (h : ∀ b ∈ bs, b < 128) :
    str2bytes (bytesToString bs) = bs := by
  show (bs.map Char.ofNat).map Char.toNat = bs
  rw [List.map_map]
  have heq : ∀ b ∈ bs, (Char.toNat ∘ Char.ofNat) b = b := fun b hb =>
    toNat_ofNat_ascii (h b hb)
  calc bs.map (Char.toNat ∘ Char.ofNat) = bs.map id := List.map_congr_left heq
    _ = bs := List.map_id bs

theorem bytesToString_str2bytes (s : String) : bytesToString (str2bytes s) = s := by
  show String.mk ((s.data.map Char.toNat).map Char.ofNat) = s
  rw [List.map_map]
  have heq : s.data.map (Char.ofNat ∘ Char.toNat) = s.data := by
    calc s.data.map (Char.ofNat ∘ Char.toNat) = s.data.map id :=
          List.map_congr_left (fun c _ => Char.ofNat_toNat c)
      _ = s.data := List.map_id _
  rw [heq]

/-! ## Decimal digit arithmetic -/

theorem foldl_digits_acc (l : List Nat) : ∀ a : Nat,
    l.reverse.foldl (fun x d => 10 * x + d) a = a * 10 ^ l.length + Nat.ofDigits 10 l := by
  induction l with
  | nil => intro a; simp
  | cons d t ih =>
    intro a
    rw [List.reverse_cons, List.foldl_append]
    simp only [List.foldl_cons, List.foldl_nil]
    rw [ih]
    simp only [Nat.ofDigits_cons, List.length_cons, pow_succ]
    ring

theorem digitsVal_map48 (l : List Nat) :
    digitsVal (l.map (fun d => d + 48)) = l.foldl (fun x d => 10 * x + d) 0 := by
  unfold digitsVal
  rw [List.foldl_map]
  have hfg : (fun (x y : Nat) => 10 * x + (y + 48 - 48)) = fun (x d : Nat) => 10 * x + d := by
    funext x y
    omega
  rw [hfg]

theorem digitsVal_natDigitsBytes (n : Nat) : digitsVal (natDigitsBytes n) = n := by
  unfold natDigitsBytes
  rw [digitsVal_map48 ((Nat.digits 10 n).reverse)]
  rw [foldl_digits_acc (Nat.digits 10 n) 0]
  simp [Nat.ofDigits_digits]

theorem digitsVal_pad (k : Nat) (l : List Nat) :
    digitsVal (List.replicate k 48 ++ l) = digitsVal l := by
  unfold digitsVal
  rw [List.foldl_append]
  have h0 : (List.replicate k 48).foldl (fun a d => 10 * a + (d - 48)) 0 = 0 := by
    induction k with
    | zero => rfl
    | succ k ih => rw [List.replicate_succ, List.foldl_cons]; simpa using ih
  rw [h0]

theorem natDigitsBytes_digit (n : Nat) : ∀ b ∈ natDigitsBytes n, is_digit b = true := by
  intro b hb
  simp only [natDigitsBytes, List.mem_map, List.mem_reverse] at hb
  obtain ⟨d, hd, rfl⟩ := hb
  have hlt : d < 10 := Nat.digits_lt_base (by norm_num) hd
  simp [is_digit]
  omega

theorem natDigitsBytes_ne {n : Nat} (h : n ≠ 0) : natDigitsBytes n ≠ [] := by
  simp [natDigitsBytes, Nat.digits_ne_nil_iff_ne_zero.mpr h]

theorem intBytes_val (n : Nat) : digitsVal (intBytes n) = n := by
  unfold intBytes
  split
  · subst n; decide
  · exact digitsVal_natDigitsBytes n

theorem intBytes_ne (n : Nat) : intBytes n ≠ [] := by
  unfold intBytes
  split
  · simp
  · exact natDigitsBytes_ne (by assumption)

theorem intBytes_digit (n : Nat) : ∀ b ∈ intBytes n, is_digit b = true := by
  unfold intBytes
  split
  · intro b hb; simp at hb; subst hb; decide
  · exact natDigitsBytes_digit n

theorem digits_length_le_of_lt_pow {m n : Nat} (h : m < 10 ^ n) :
    (Nat.digits 10 m).length ≤ n := by
  rcases Nat.eq_zero_or_pos m with rfl | hm
  · simp
  by_contra hc
  push_neg at hc
  have h1 : 10 ^ (Nat.digits 10 m).length ≤ 10 * m :=
    Nat.base_pow_length_digits_le 10 m (by norm_num) (by omega)
  have h2 : 10 ^ (n + 1) ≤ 10 ^ (Nat.digits 10 m).length :=
    Nat.pow_le_pow_right (by norm_num) (by omega)
  have h3 : 10 ^ (n + 1) = 10 * 10 ^ n := by ring
  omega

theorem fracBytes_length {f e : Nat} (hf : f < 10 ^ e) : (fracBytes f e).length = e := by
  have hle : (Nat.digits 10 f).length ≤ e := digits_length_le_of_lt_pow hf
  simp [fracBytes, natDigitsBytes, List.length_append, List.length_replicate]
  omega

theorem fracBytes_ne {f e : Nat} (he : e ≠ 0) (hf : f < 10 ^ e) : fracBytes f e ≠ [] := by
  intro hc
  have := fracBytes_length hf
  rw [hc] at this
  simp at this
  omega

theorem fracBytes_digit (f e : Nat) : ∀ b ∈ fracBytes f e, is_digit b = true := by
  intro b hb
  simp only [fracBytes, List.mem_append, List.mem_replicate] at hb
  rcases hb with ⟨-, rfl⟩ | hb
  · decide
  · exact natDigitsBytes_digit f b hb

theorem fracBytes_val (f e : Nat) : digitsVal (fracBytes f e) = f := by
  unfold fracBytes
  rw [digitsVal_pad, digitsVal_natDigitsBytes]

/-! ## Correctness of the decimal rendering -/

theorem renderFloatBytes_shape (q : ℚ) :
    renderFloatBytes q
      = (if q.num < 0 then [45] else [])
          ++ intBytes (renderIp q) ++ fracPart (renderFrac q) := by
  by_cases h : renderExp q = 0 <;>
    simp [renderFloatBytes, fracPart, renderFrac, renderIp, renderFp, renderScaled, h]

theorem renderFloatBytes_ascii (q : ℚ) : ∀ b ∈ renderFloatBytes q, b < 128 := by
  intro b hb
  rw [renderFloatBytes_shape] at hb
  simp only [List.mem_append] at hb
  rcases hb with (hb | hb) | hb
  · split at hb
    · simp at hb; omega
    · simp at hb
  · have := digit_range (intBytes_digit _ b hb)
    omega
  · unfold renderFrac at hb
    split at hb
    · simp [fracPart] at hb
    · simp only [fracPart, List.mem_cons] at hb
      rcases hb with rfl | hb
      · omega
      · have := digit_range (fracBytes_digit _ _ b hb)
        omega

theorem renderFp_lt (q : ℚ) : renderFp q < 10 ^ renderExp q :=
  Nat.mod_lt _ (Nat.pos_pow_of_pos _ (by norm_num))

theorem renderFrac_spec (q : ℚ) :
    ∀ fs, renderFrac q = some fs → fs ≠ [] ∧ ∀ d ∈ fs, is_digit d = true := by
  intro fs hfs
  unfold renderFrac at hfs
  split at hfs
  · cases hfs
  · next h0 =>
    cases hfs
    exact ⟨fracBytes_ne h0 (renderFp_lt q), fracBytes_digit _ _⟩

theorem render_val_abs {q : ℚ} (hq : q.den ∣ 10 ^ renderExp q) :
    decimalMag (intBytes (renderIp q)) (renderFrac q)
      = (q.num.natAbs : ℚ) / (q.den : ℚ) := by
  have hpow : (0 : Nat) < 10 ^ renderExp q := Nat.pos_pow_of_pos _ (by norm_num)
  have hSD : renderScaled q * q.den = q.num.natAbs * 10 ^ renderExp q := by
    unfold renderScaled
    rw [mul_assoc, Nat.div_mul_cancel hq]
  have hsum : 10 ^ renderExp q * renderIp q + renderFp q = renderScaled q :=
    Nat.div_add_mod (renderScaled q) (10 ^ renderExp q)
  have hfrac : fracMagQ (renderFrac q) = ((renderFp q : Nat) : ℚ) / 10 ^ renderExp q := by
    unfold renderFrac
    split
    · next h0 =>
      have : renderFp q = 0 := by
        unfold renderFp
        simp [h0, Nat.mod_one]
      simp [fracMagQ, this]
    · next h0 =>
      simp [fracMagQ, fracValQ, fracBytes_val, fracBytes_length (renderFp_lt q)]
  unfold decimalMag
  rw [intBytes_val, hfrac]
  have hden : ((q.den : ℚ)) ≠ 0 := by
    exact_mod_cast Nat.pos_iff_ne_zero.mp q.pos
  have hp : ((10 : ℚ) ^ renderExp q) ≠ 0 := by positivity
  have key : ((renderIp q : Nat) : ℚ) * 10 ^ renderExp q + ((renderFp q : Nat) : ℚ)
      = ((renderScaled q : Nat) : ℚ) := by
    have h := congrArg (fun n : Nat => (n : ℚ)) hsum
    push_cast at h
    linarith [h]
  have key2 : ((renderScaled q : Nat) : ℚ) * q.den
      = ((q.num.natAbs : Nat) : ℚ) * 10 ^ renderExp q := by
    exact_mod_cast congrArg (fun n : Nat => (n : ℚ)) hSD
  have hstep : ((renderIp q : Nat) : ℚ) + ((renderFp q : Nat) : ℚ) / 10 ^ renderExp q
      = ((renderScaled q : Nat) : ℚ) / 10 ^ renderExp q := by
    field_simp
    linarith [key]
  rw [hstep, div_eq_div_iff hp hden]
  linarith [key2]

theorem float_render_roundtrip {q : ℚ} (hq : q.den ∣ 10 ^ renderExp q) :
    get_message (str2bytes (to_text (.Float q))) = .ok (.Float q) := by
  have hip_ne : intBytes (renderIp q) ≠ [] := intBytes_ne _
  have hip_dig := intBytes_digit (renderIp q)
  have habs := render_val_abs hq
  have hrf : str2bytes (renderFloat q) = renderFloatBytes q :=
    str2bytes_bytesToString (renderFloatBytes_ascii q)
  have hbytes : str2bytes (to_text (.Float q))
      = str2bytes "float" ++ ([32] ++ (renderFloatBytes q ++ 59 :: [10])) := by
    show str2bytes ("float " ++ renderFloat q ++ ";\n") = _
    rw [str2bytes_append, str2bytes_append, hrf]
    have h1 : str2bytes "float " = str2bytes "float" ++ [32] := by decide
    have h2 : str2bytes ";\n" = 59 :: [10] := by decide
    rw [h1, h2]
    simp [List.append_assoc]
  by_cases hneg : q.num < 0
  · have hmain := @get_message_float_sel true (intBytes (renderIp q)) (renderFrac q)
      hip_ne hip_dig (renderFrac_spec q)
    have hvq : signedVal true (decimalMag (intBytes (renderIp q)) (renderFrac q)) = q := by
      show -(decimalMag (intBytes (renderIp q)) (renderFrac q)) = q
      rw [habs]
      have hcast : ((q.num.natAbs : Nat) : ℚ) = -((q.num : ℤ) : ℚ) := by
        rw [Int.cast_natAbs, abs_of_neg hneg]
        push_cast
        ring
      rw [hcast]
      rw [neg_div, neg_neg]
      exact Rat.num_div_den q
    rw [hvq] at hmain
    rw [hbytes, renderFloatBytes_shape, if_pos hneg]
    simp only [List.append_assoc, List.cons_append, List.nil_append, if_true] at hmain ⊢
    exact hmain
  · have hmain := @get_message_float_sel false (intBytes (renderIp q)) (renderFrac q)
      hip_ne hip_dig (renderFrac_spec q)
    have hvq : signedVal false (decimalMag (intBytes (renderIp q)) (renderFrac q)) = q := by
      show decimalMag (intBytes (renderIp q)) (renderFrac q) = q
      rw [habs]
      have hcast : ((q.num.natAbs : Nat) : ℚ) = ((q.num : ℤ) : ℚ) := by
        rw [Int.cast_natAbs, abs_of_nonneg (not_lt.mp hneg)]
      rw [hcast]
      exact Rat.num_div_den q
    rw [hvq] at hmain
    rw [hbytes, renderFloatBytes_shape, if_neg hneg]
    simp only [List.append_assoc, List.cons_append, List.nil_append, if_false,
      Bool.false_eq_true] at hmain ⊢
    exact hmain

/-! ## Suffix lemmas: every combinator returns a suffix of its input -/

theorem split1_suffix {p : Nat → Bool} {input rest w : List Nat}
    (h : split1 p input = .ok rest w) : rest <:+ input := by
  unfold split1 at h
  by_cases h1 : (input.dropWhile p).isEmpty
  · simp [h1] at h
  · by_cases h2 : (input.takeWhile p).isEmpty
    · simp [h1, h2] at h
    · simp only [h1, h2, if_false, Bool.false_eq_true, PR.ok.injEq] at h
      rw [← h.1]
      exact List.dropWhile_suffix p

theorem charP_suffix {c : Nat} {input rest : List Nat} {v : Nat}
    (h : charP c input = .ok rest v) : rest <:+ input := by
  cases input with
  | nil => cases h
  | cons b t =>
    simp only [charP] at h
    split at h
    · rw [PR.ok.injEq] at h
      rw [← h.1]
      exact List.suffix_cons b t
    · cases h

theorem take_till_suffix {input rest w : List Nat}
    (h : take_till_not_ws input = .ok rest w) : rest <:+ input := by
  unfold take_till_not_ws at h
  by_cases h1 : (input.dropWhile is_whitespace).isEmpty
  · simp [h1] at h
  · simp only [h1, if_false, Bool.false_eq_true, PR.ok.injEq] at h
    rw [← h.1]
    exact List.dropWhile_suffix is_whitespace

theorem signOpt_suffix {input rest : List Nat} {v : Bool}
    (h : signOpt input = .ok rest v) : rest <:+ input := by
  unfold signOpt at h
  split at h
  · next r c heq =>
    rw [PR.ok.injEq] at h
    rw [← h.1]
    exact charP_suffix heq
  · cases h
  · split at h
    · next r c heq =>
      rw [PR.ok.injEq] at h
      rw [← h.1]
      exact charP_suffix heq
    · cases h
    · rw [PR.ok.injEq] at h
      rw [← h.1]

theorem fracOpt_suffix {input rest : List Nat} {v : ℚ}
    (h : fracOpt input = .ok rest v) : rest <:+ input := by
  unfold fracOpt at h
  split at h
  · cases h
  · rw [PR.ok.injEq] at h
    rw [← h.1]
  · next r c hc =>
    have hr : r <:+ input := charP_suffix hc
    split at h
    · cases h
    · rw [PR.ok.injEq] at h
      rw [← h.1]
      exact hr
    · next r2 fs heq =>
      rw [PR.ok.injEq] at h
      rw [← h.1]
      exact (split1_suffix heq).trans hr

theorem expTail_suffix {orig rest out : List Nat} {v : ℚ} (hro : rest <:+ orig)
    (h : expTail orig rest = .ok out v) : out <:+ orig := by
  unfold expTail at h
  split at h
  · cases h
  · cases h
  · next r2 negE heq =>
    have hr2 : r2 <:+ rest := signOpt_suffix heq
    split at h
    · cases h
    · rw [PR.ok.injEq] at h
      rw [← h.1]
    · next r3 es heq2 =>
      rw [PR.ok.injEq] at h
      rw [← h.1]
      exact ((split1_suffix heq2).trans hr2).trans hro

theorem expOpt_suffix {input rest : List Nat} {v : ℚ}
    (h : expOpt input = .ok rest v) : rest <:+ input := by
  unfold expOpt at h
  split at h
  · cases h
  · next r c heq => exact expTail_suffix (charP_suffix heq) h
  · split at h
    · cases h
    · next r c heq => exact expTail_suffix (charP_suffix heq) h
    · rw [PR.ok.injEq] at h
      rw [← h.1]

theorem float_suffix {input rest : List Nat} {v : ℚ}
    (h : float input = .ok rest v) : rest <:+ input := by
  unfold float at h
  split at h
  · cases h
  · cases h
  · next i1 neg hsign =>
    have h1 : i1 <:+ input := signOpt_suffix hsign
    split at h
    · cases h
    · next i2 ds hdig =>
      have h2 : i2 <:+ i1 := split1_suffix hdig
      split at h
      · cases h
      · cases h
      · next i3 fv hfo =>
        have h3 : i3 <:+ i2 := fracOpt_suffix hfo
        split at h
        · cases h
        · cases h
        · next i4 sc heo =>
          rw [PR.ok.injEq] at h
          rw [← h.1]
          exact (((expOpt_suffix heo).trans h3).trans h2).trans h1
    · split at h
      · cases h
      · cases h
      · next i2 c hdot =>
        have h2 : i2 <:+ i1 := charP_suffix hdot
        split at h
        · cases h
        · cases h
        · next i3 fs hdg =>
          have h3 : i3 <:+ i2 := split1_suffix hdg
          split at h
          · cases h
          · cases h
          · next i4 sc heo =>
            rw [PR.ok.injEq] at h
            rw [← h.1]
            exact (((expOpt_suffix heo).trans h3).trans h2).trans h1

theorem popt_suffix {α : Type} {p : List Nat → PR α} {input rest : List Nat} {v : Option α}
    (hp : ∀ {r : List Nat} {a : α}, p input = .ok r a → r <:+ input)
    (h : popt p input = .ok rest v) : rest <:+ input := by
  unfold popt at h
  split at h
  · next r a heq =>
    rw [PR.ok.injEq] at h
    rw [← h.1]
    exact hp heq
  · rw [PR.ok.injEq] at h
    rw [← h.1]
  · cases h

theorem parse_atom_suffix {input rest : List Nat} {a : AtomData}
    (h : parse_atom input = .ok rest a) : rest <:+ input := by
  unfold parse_atom at h
  split at h
  · cases h
  · cases h
  · next i1 f hf =>
    have h1 : i1 <:+ input := popt_suffix (fun heq => float_suffix heq) hf
    split at h
    · cases h
    · cases h
    · next i2 dg hd =>
      have h2 : i2 <:+ i1 := popt_suffix (fun heq => split1_suffix heq) hd
      split at h
      · cases h
      · cases h
      · next i3 w hw =>
        rw [PR.ok.injEq] at h
        rw [← h.1]
        exact ((popt_suffix (fun heq => split1_suffix heq) hw).trans h2).trans h1

theorem parse_atom_ws_suffix {input rest : List Nat} {tok : Token}
    (h : parse_atom_ws input = .ok rest tok) : rest <:+ input := by
  unfold parse_atom_ws at h
  split at h
  · cases h
  · cases h
  · next i a hpa =>
    have h1 : i <:+ input := parse_atom_suffix hpa
    split at h
    · cases h
    · cases h
    · next i2 ws heq =>
      rw [PR.ok.injEq] at h
      rw [← h.1]
      exact (take_till_suffix heq).trans h1

/-! ## No terminator means no message -/

theorem go_no_semicolon (fuel : Nat) : ∀ (input : List Nat) (acc : List Token),
    (∀ b ∈ input, b ≠ 59) →
    parse_message_go fuel input acc = .error ∨
      parse_message_go fuel input acc = .incomplete := by
  induction fuel with
  | zero => intro input acc _; left; rfl
  | succ f ih =>
    intro input acc h59
    have hc : charP 59 input = .error ∨ charP 59 input = .incomplete := by
      cases input with
      | nil => right; rfl
      | cons b t => left; exact charP_ne (by simp) (by simpa using h59 b (by simp))
    cases hpw : parse_atom_ws input with
    | error => left; rcases hc with hc | hc <;> simp [parse_message_go, hc, hpw]
    | incomplete => right; rcases hc with hc | hc <;> simp [parse_message_go, hc, hpw]
    | ok i tok =>
      by_cases hlen : i.length = input.length
      · left; rcases hc with hc | hc <;> simp [parse_message_go, hc, hpw, hlen]
      · have hstep : parse_message_go (f + 1) input acc
            = parse_message_go f i (acc ++ [tok]) := by
          rcases hc with hc | hc <;> simp [parse_message_go, hc, hpw, hlen]
        rw [hstep]
        exact ih i (acc ++ [tok])
          (fun b hb => h59 b ((parse_atom_ws_suffix hpw).subset hb))

theorem get_message_no_semicolon (payload : List Nat) (h : ∀ b ∈ payload, b ≠ 59) :
    get_message payload = .err .couldNotParse := by
  unfold get_message parse_message
  rcases go_no_semicolon (payload.length + 1) payload [] h with hgo | hgo <;> rw [hgo]

/-! ## Round trips for Symbol and Generic messages -/

theorem reserved_spec {w : List Nat} (h : reserved_selector_bytes.contains w = false) :
    w ≠ str2bytes "bang" ∧ w ≠ str2bytes "float" ∧ w ≠ str2bytes "symbol" ∧
      w ≠ str2bytes "list" := by
  simp only [reserved_selector_bytes, List.contains_cons, Bool.or_eq_false_iff,
    List.contains_nil, beq_eq_false_iff_ne, ne_eq] at h
  exact ⟨h.1, h.2.1, h.2.2.1, h.2.2.2.1⟩

theorem symbol_roundtrip {s : String} (hs : simpleWord (str2bytes s) = true) :
    get_message (str2bytes (to_text (.Symbol s))) = .ok (.Symbol s) := by
  have hbytes : str2bytes (to_text (.Symbol s))
      = joinWords [str2bytes "symbol", str2bytes s] ++ [59, 10] := by
    show str2bytes ("symbol " ++ s ++ ";\n") = _
    rw [str2bytes_append, str2bytes_append]
    have h1 : str2bytes "symbol " = str2bytes "symbol" ++ [32] := by decide
    have h2 : str2bytes ";\n" = [59, 10] := by decide
    rw [h1, h2]
    simp [joinWords, List.append_assoc]
  rw [hbytes, get_message_words _ ?hws]
  case hws =>
    intro w hw
    simp only [List.mem_cons, List.not_mem_nil, or_false] at hw
    rcases hw with rfl | rfl
    · decide
    · exact hs
  have hnf : str2bytes "symbol" ≠ str2bytes "float" := by decide
  have hcl : classify (wordTokens [str2bytes "symbol", str2bytes s])
      = .ok (.Symbol (bytesToString (str2bytes s))) := by
    simp [wordTokens, classify, hnf]
  rw [hcl, bytesToString_str2bytes]

theorem joinWords_glue (x y : List Nat) (l : List (List Nat)) :
    joinWords ((x ++ 32 :: y) :: l) = x ++ 32 :: joinWords (y :: l) := by
  cases l with
  | nil => simp [joinWords]
  | cons a t => simp [joinWords, List.append_assoc]

theorem str2bytes_foldl (atoms : List String) : ∀ sel : String,
    str2bytes (atoms.foldl (fun p a => p ++ " " ++ a) sel)
      = joinWords (str2bytes sel :: atoms.map str2bytes) := by
  induction atoms with
  | nil => intro sel; simp [joinWords]
  | cons a t ih =>
    intro sel
    rw [List.foldl_cons, ih (sel ++ " " ++ a), List.map_cons]
    have hsa : str2bytes (sel ++ " " ++ a) = str2bytes sel ++ 32 :: str2bytes a := by
      rw [str2bytes_append, str2bytes_append]
      have hsp : str2bytes " " = [32] := by decide
      rw [hsp]
      simp
    rw [hsa, joinWords_glue]
    simp [joinWords]

theorem generic_roundtrip {sel : String} {atoms : List String}
    (hsel : simpleWord (str2bytes sel) = true)
    (hatoms : ∀ a ∈ atoms, simpleWord (str2bytes a) = true)
    (hres : reserved_selector_bytes.contains (str2bytes sel) = false) :
    get_message (str2bytes (to_text (.Generic ⟨sel, atoms⟩)))
      = .ok (.Generic ⟨sel, atoms⟩) := by
  obtain ⟨hnb, hnf, hns, hnl⟩ := reserved_spec hres
  have hbytes : str2bytes (to_text (.Generic ⟨sel, atoms⟩))
      = joinWords (str2bytes sel :: atoms.map str2bytes) ++ [59, 10] := by
    show str2bytes (atoms.foldl (fun p a => p ++ " " ++ a) sel ++ ";\n") = _
    rw [str2bytes_append, str2bytes_foldl]
    have h2 : str2bytes ";\n" = [59, 10] := by decide
    rw [h2]
  have hws : ∀ w ∈ str2bytes sel :: atoms.map str2bytes, simpleWord w = true := by
    intro w hw
    simp only [List.mem_cons, List.mem_map] at hw
    rcases hw with rfl | ⟨a, ha, rfl⟩
    · exact hsel
    · exact hatoms a ha
  rw [hbytes, get_message_words _ hws]
  have hmapmap : (atoms.map str2bytes).map bytesToString = atoms := by
    rw [List.map_map]
    calc atoms.map (bytesToString ∘ str2bytes) = atoms.map id :=
          List.map_congr_left (fun a _ => bytesToString_str2bytes a)
      _ = atoms := List.map_id _
  cases atoms with
  | nil =>
    rw [List.map_nil, classify_one_word _ hnb hnl, bytesToString_str2bytes]
  | cons a rest =>
    rw [List.map_cons, classify_words _ _ _ hnf hns, bytesToString_str2bytes]
    rw [List.map_cons] at hmapmap
    rw [show ((str2bytes a :: rest.map str2bytes).map bytesToString) = a :: rest
      from hmapmap]

/-! ## Serializer text lemmas -/

theorem decimalMag_nonneg (ds : List Nat) (frac : Option (List Nat)) :
    0 ≤ decimalMag ds frac := by
  unfold decimalMag
  have h1 : (0 : ℚ) ≤ (digitsVal ds : ℚ) := by positivity
  have h2 : (0 : ℚ) ≤ fracMagQ frac := by
    cases frac with
    | none => simp [fracMagQ]
    | some fs =>
      unfold fracMagQ fracValQ
      positivity
  linarith

theorem string_append_empty (a : String) : a ++ "" = a := by
  cases a with
  | mk l =>
    show String.mk (l ++ []) = String.mk l
    rw [List.append_nil]

theorem string_empty_append (a : String) : "" ++ a = a := by
  cases a with
  | mk l => rfl

theorem foldl_append_shift (t : List String) : ∀ x y : String,
    t.foldl (fun r s => r ++ s) (x ++ y) = x ++ t.foldl (fun r s => r ++ s) y := by
  induction t with
  | nil => intro x y; rfl
  | cons a r ih =>
    intro x y
    rw [List.foldl_cons, List.foldl_cons, String.append_assoc, ih]

theorem string_join_cons (a : String) (t : List String) :
    String.join (a :: t) = a ++ String.join t := by
  show (a :: t).foldl (fun r s => r ++ s) "" = _
  rw [List.foldl_cons, string_empty_append]
  calc t.foldl (fun r s => r ++ s) a
      = t.foldl (fun r s => r ++ s) (a ++ "") := by rw [string_append_empty]
    _ = a ++ t.foldl (fun r s => r ++ s) "" := foldl_append_shift t a ""

theorem foldl_space_join (atoms : List String) : ∀ sel : String,
    atoms.foldl (fun p a => p ++ " " ++ a) sel
      = sel ++ String.join (atoms.map (fun a => " " ++ a)) := by
  induction atoms with
  | nil =>
    intro sel
    show sel = sel ++ String.join []
    rw [show String.join ([] : List String) = "" from rfl, string_append_empty]
  | cons a t ih =>
    intro sel
    rw [List.foldl_cons, ih (sel ++ " " ++ a), List.map_cons, string_join_cons]
    simp [String.append_assoc]

/-! ## Claim theorems -/

/-- C1 (corrected).  The serialize-then-decode round trip
    get_message (str2bytes (to_text m)) = ok m holds on the amended domain
    `roundtrippable`: Bang always; Float whenever the payload value has a finite decimal
    expansion (every value an f32 holds does); Symbol whenever the text is one nonempty
    alphanumeric word starting with a letter; Generic whenever the selector and every
    atom are such words and the selector is not a reserved word (bang, float, symbol,
    list).  The claim as frozen quantifies over every constructible message and excepts
    only Generic; it fails already for Symbol payloads that are not single words
    (see the counterexample). -/
theorem c1_round_trip (m : PdMessage) (h : roundtrippable m = true) :
    get_message (str2bytes (to_text m)) = .ok m := by
  cases m with
  | Bang => decide
  | Float q =>
    refine float_render_roundtrip ?_
    simpa [roundtrippable] using h
  | Symbol s =>
    refine symbol_roundtrip ?_
    simpa [roundtrippable] using h
  | Generic msg =>
    obtain ⟨sel, atoms⟩ := msg
    simp only [roundtrippable, Bool.and_eq_true, Bool.not_eq_true', List.all_eq_true] at h
    exact generic_roundtrip h.1.1 h.1.2 h.2

/-- Witness for C1 at a concrete generic message. -/
theorem c1_round_trip_witness :
    roundtrippable (.Generic ⟨"foo", ["bar", "baz"]⟩) = true ∧
      get_message (str2bytes (to_text (.Generic ⟨"foo", ["bar", "baz"]⟩)))
        = .ok (.Generic ⟨"foo", ["bar", "baz"]⟩) :=
  ⟨by decide, c1_round_trip (.Generic ⟨"foo", ["bar", "baz"]⟩) (by decide)⟩

/-- Counterexample to C1 as frozen: the Symbol message "la la" is not Generic, yet
    serializing it to "symbol la la;" followed by newline and decoding does not return
    it (the decoder yields a Generic message with selector "symbol"). -/
theorem c1_round_trip_counterexample :
    get_message (str2bytes (to_text (.Symbol "la la"))) ≠ .ok (.Symbol "la la") := by
  decide

/-- C2 (confirmed).  A single-atom payload consisting of an optional minus sign,
    integer digits and an optional fractional part decodes to Float(v) where v carries
    the decimal magnitude of the digits with the sign of the optional minus; without a
    minus sign the value is nonnegative, and with a minus sign and a nonzero magnitude
    it is negative.  ("-0" yields the value zero, indistinguishable from IEEE negative
    zero in the value model.) -/
theorem c2_numeric_atom (neg : Bool) (ds : List Nat) (frac : Option (List Nat))
    (hds : ds ≠ []) (hall : ∀ d ∈ ds, is_digit d = true)
    (hfr : ∀ fs, frac = some fs → fs ≠ [] ∧ ∀ d ∈ fs, is_digit d = true) :
    get_message ((if neg then [45] else []) ++ ds ++ fracPart frac ++ [59, 10])
        = .ok (.Float (signedVal neg (decimalMag ds frac)))
      ∧ (neg = false → 0 ≤ signedVal neg (decimalMag ds frac))
      ∧ (neg = true → 0 < decimalMag ds frac → signedVal neg (decimalMag ds frac) < 0) := by
  refine ⟨get_message_numeric hds hall hfr, ?_, ?_⟩
  · rintro rfl
    simpa [signedVal] using decimalMag_nonneg ds frac
  · rintro rfl hpos
    show -(decimalMag ds frac) < 0
    linarith

/-- Witness for C2 at the payload "-3;" with newline, the claim's own example. -/
theorem c2_numeric_atom_witness :
    str2bytes "-3;\n" = [45, 51, 59, 10] ∧
      get_message [45, 51, 59, 10] = .ok (.Float (signedVal true (decimalMag [51] none)))
      ∧ signedVal true (decimalMag [51] none) = -3 := by
  refine ⟨by decide, ?_, ?_⟩
  · have h := (c2_numeric_atom true [51] none (by decide) (by decide)
      (fun fs hfs => by cases hfs)).1
    simpa [fracPart] using h
  · norm_num [signedVal, decimalMag, fracMagQ, digitsVal]

/-- C3 (code_bug).  The two-atom list messages of the repository's own test
    (message_from_list_payload expects Symbol "foo" and Float 74) actually decode to
    Generic messages: the one-element-list branch of get_message is an empty if-block,
    so "list foo;" falls through to the generic fallback and "list 74;" loses its
    numeric atom as well. -/
theorem c3_list_single :
    get_message (str2bytes "list foo;\n") = .ok (.Generic ⟨"list", ["foo"]⟩)
      ∧ get_message (str2bytes "list 74;\n") = .ok (.Generic ⟨"list", []⟩) :=
  ⟨by decide, by decide⟩

/-- Counterexample to C4 as frozen: in "foo 12 bar;" the numeric atom "12" is dropped
    from the generic message, so the atoms are not all kept. -/
theorem c4_generic_counterexample :
    get_message (str2bytes "foo 12 bar;\n") ≠ .ok (.Generic ⟨"foo", ["12", "bar"]⟩)
      ∧ get_message (str2bytes "foo 12 bar;\n") = .ok (.Generic ⟨"foo", ["bar"]⟩) :=
  ⟨by decide, by decide⟩

/-- C4 (corrected).  For two or more atoms with no reserved-selector match the decoder
    returns Generic with the first atom as selector and the remaining atoms in source
    order, provided every atom is a nonempty alphanumeric word starting with a letter;
    numeric atoms are silently dropped by the source (see the counterexample), so the
    claim holds only on word atoms. -/
theorem c4_generic_words (ws : List (List Nat)) (h2 : 2 ≤ ws.length)
    (hw : ∀ w ∈ ws, simpleWord w = true)
    (hres : ∀ r ∈ reserved_selector_bytes, ws.headD [] ≠ r) :
    get_message (joinWords ws ++ [59, 10])
      = .ok (.Generic ⟨bytesToString (ws.headD []), ws.tail.map bytesToString⟩) := by
  cases ws with
  | nil => simp at h2
  | cons w0 ws1 =>
    cases ws1 with
    | nil => simp at h2
    | cons w1 rest =>
      rw [get_message_words _ hw,
        classify_words w0 w1 rest
          (hres (str2bytes "float") (by simp [reserved_selector_bytes]))
          (hres (str2bytes "symbol") (by simp [reserved_selector_bytes]))]
      rfl

/-- Witness for C4 at the two-word payload "alpha beta;". -/
theorem c4_generic_words_witness :
    get_message (joinWords [str2bytes "alpha", str2bytes "beta"] ++ [59, 10])
      = .ok (.Generic ⟨bytesToString ((
          [str2bytes "alpha", str2bytes "beta"] : List (List Nat)).headD []),
          ([str2bytes "alpha", str2bytes "beta"] : List (List Nat)).tail.map bytesToString⟩) :=
  c4_generic_words [str2bytes "alpha", str2bytes "beta"] (by decide) (by decide) (by decide)

/-- C5 (code_bug).  A payload with zero atoms before the terminator does not produce
    the typed EmptyMessage error the specification postulates: the source indexes
    atoms[0] on an empty vector, which is an out-of-bounds panic, modelled here as the
    panicked outcome. -/
theorem c5_empty_message_panics :
    get_message (str2bytes ";\n") = .err .panicked := by
  decide

/-- C6 (confirmed).  A payload containing no semicolon never decodes: parse_message
    ends in Error or Incomplete, and get_message returns its "could not parse payload"
    error, the MissingTerminator failure of the specification; no partial message is
    returned. -/
theorem c6_missing_terminator (payload : List Nat) (h : ∀ b ∈ payload, b ≠ 59) :
    get_message payload = .err .couldNotParse :=
  get_message_no_semicolon payload h

/-- Witness for C6 at the unterminated payload "bang" with newline. -/
theorem c6_missing_terminator_witness :
    get_message (str2bytes "bang\n") = .err .couldNotParse :=
  c6_missing_terminator (str2bytes "bang\n") (by decide)

/-- C7 (code_bug).  The decoder does abort on the malformed inputs the claim lists:
    a two-atom message whose selector is symbol with a numeric payload atom runs into
    panic!("parsing symbol message not yet implemented"), and a message with no atoms
    panics on an out-of-bounds index, both modelled as the panicked outcome rather
    than a typed error result. -/
theorem c7_panics_on_malformed :
    get_message (str2bytes "symbol 123;\n") = .err .panicked
      ∧ get_message (str2bytes " ;\n") = .err .panicked :=
  ⟨by decide, by decide⟩

/-- C8 (confirmed).  Serialization is total by construction (to_text is a total
    function of the message) and produces exactly the canonical forms of the
    specification for all four variants; for Generic the space-prefixed atoms appear
    in order after the selector. -/
theorem c8_serializer_canonical (v : ℚ) (s sel : String) (atoms : List String) :
    to_text (.Float v) = "float " ++ renderFloat v ++ ";\n"
      ∧ to_text (.Symbol s) = "symbol " ++ s ++ ";\n"
      ∧ to_text .Bang = "bang;\n"
      ∧ to_text (.Generic ⟨sel, atoms⟩)
          = sel ++ String.join (atoms.map (fun a => " " ++ a)) ++ ";\n" := by
  refine ⟨?_, ?_, rfl, ?_⟩
  · show ("float " ++ renderFloat v) ++ ";\n" = "float " ++ (renderFloat v ++ ";\n")
    exact String.append_assoc _ _ _
  · show ("symbol " ++ s) ++ ";\n" = "symbol " ++ (s ++ ";\n")
    exact String.append_assoc _ _ _
  · show (atoms.foldl (fun p a => p ++ " " ++ a) sel) ++ ";\n" = _
    rw [foldl_space_join]

/-- C9 (code_bug).  The inbound receive buffer is one byte, not the ~65507-byte
    maximum the claim (and the comment in the source) requires: receiving the 6-byte
    datagram "bang;" with newline returns a single byte, silently truncating the
    datagram. -/
theorem c9_receive_truncates :
    receive_binary (str2bytes (to_text .Bang)) = [98]
      ∧ (str2bytes (to_text .Bang)).length = 6 :=
  ⟨by decide, by decide⟩

/-- C10 (confirmed).  Serializing a Generic message with an empty atom list yields the
    selector immediately followed by the terminator and newline, with no trailing
    space. -/
theorem c10_generic_empty_no_space (sel : String) :
    to_text (.Generic ⟨sel, []⟩) = sel ++ ";\n" := rfl

end Fudi
